import Mathlib

/-!
Verification of the TCanny edge-detection core (src/TCanny/TCanny.cpp).

The C++ source operates on `float` buffers.  The shallow embedding below uses
exact rationals (`ℚ`) for buffer values and thresholds: every comparison and
sentinel test performed by the scalar reference code (`#else` branches of the
source) is a plain ordered comparison, so the control flow is captured exactly.
The two sentinel constants `FLT_MAX` and `-FLT_MAX` are embedded as the exact
rational value of the IEEE-754 binary32 maximum, and the float literals
`M_PIF` / `M_1_PIF` as the exact rational values of the rounded `float`
constants from lines 33-34 of the source.  Transcendental library calls
(`std::sqrt`, `std::atan2`, `std::exp`) are modelled over `ℝ` where a claim is
about their values, and threaded as function parameters through the pipeline
where a claim is not.

Plane buffers are embedded as total functions `ℤ × ℤ → ℚ`; the source's
row-pointer / stride arithmetic (`p + stride`, `p - stride + 1`, ...) is
translated into the corresponding 2-D coordinate offsets.
-/

namespace TCanny

/-- Exact rational value of `FLT_MAX` (IEEE-754 binary32): `(2^24 - 1) * 2^104`. -/
def fltMax : ℚ := (2 ^ 24 - 1) * 2 ^ 104

/-- Exact rational value of the `float` constant `M_PIF` (line 33). -/
def M_PIF : ℚ := 13176795 / 4194304

/-- Exact rational value of the `float` constant `M_1_PIF` (line 34). -/
def M_1_PIF : ℚ := 10680707 / 33554432

/-- C `static_cast<int>` on a rational: truncation toward zero. -/
def truncQ (q : ℚ) : ℤ := if q < 0 then ⌈q⌉ else ⌊q⌋

/-- A pixel coordinate `(x, y)`. -/
abbrev Pos : Type := ℤ × ℤ

/-- A plane buffer, as a total function from coordinates to sample values. -/
abbrev Plane : Type := Pos → ℚ

/-- `p` lies inside the `w × h` plane. -/
def inPlane (w h : ℕ) (p : Pos) : Prop :=
  0 ≤ p.1 ∧ p.1 < (w : ℤ) ∧ 0 ≤ p.2 ∧ p.2 < (h : ℤ)

instance (w h : ℕ) (p : Pos) : Decidable (inPlane w h p) := by
  unfold inPlane; infer_instance

/-- `p` is an interior pixel: `x ∈ [1, w-2]`, `y ∈ [1, h-2]`.  These are the
pixels visited by the `y = 1 .. height-2`, `x = 1 .. width-2` loops of
`nonMaximumSuppression` and `hysteresis`. -/
def interior (w h : ℕ) (p : Pos) : Prop :=
  1 ≤ p.1 ∧ p.1 < (w : ℤ) - 1 ∧ 1 ≤ p.2 ∧ p.2 < (h : ℤ) - 1

instance (w h : ℕ) (p : Pos) : Decidable (interior w h p) := by
  unfold interior; infer_instance

/-- `getBin<T>` for integral `T` (lines 94-98):
`bin = (int)(dir * n * M_1_PIF + 0.5f); return bin >= n ? 0 : bin`. -/
def getBinInt (dir : ℚ) (n : ℤ) : ℤ :=
  let bin := truncQ (dir * n * M_1_PIF + 1 / 2)
  if n ≤ bin then 0 else bin

/-- `getBin<float>` (lines 100-104): `bin = dir * M_1_PIF; return bin > n ? 0 : bin`. -/
def getBinFloat (dir : ℚ) (n : ℤ) : ℚ :=
  let bin := dir * M_1_PIF
  if (n : ℚ) < bin then 0 else bin

/-- The neighbour-offset table of `nonMaximumSuppression` (line 649):
`offsets[] { 1, -stride + 1, -stride, -stride - 1 }`, translated from linear
stride arithmetic to 2-D coordinate offsets.  An index outside `0..3` is an
out-of-bounds read in the source (it cannot occur while directions are
nonnegative); the final catch-all branch is arbitrary. -/
def nmsOffset (b : ℤ) : Pos :=
  if b = 0 then (1, 0)
  else if b = 1 then (1, -1)
  else if b = 2 then (0, -1)
  else if b = 3 then (-1, -1)
  else (0, 0)

/-- `nonMaximumSuppression` (lines 647-667), as the contents of the `blur`
buffer after the call, described positionally: the first and last rows and the
first and last columns are filled with `-FLT_MAX`; every interior pixel holds
its own gradient if it is `>=` both neighbours along the offset axis selected
by `getBin<int>(direction, 4)`, and `-FLT_MAX` otherwise.  (Cells outside the
plane are not written by the source; the embedding maps them to `-FLT_MAX` as
well, which is also the value the surrounding halo holds when the buffer is
consumed by `hysteresis`.) -/
def nonMaximumSuppression (gradient direction : Plane) (w h : ℕ) : Plane := fun p =>
  if interior w h p then
    let o := nmsOffset (getBinInt (direction p) 4)
    if max (gradient (p + o)) (gradient (p - o)) ≤ gradient p then gradient p else -fltMax
  else -fltMax

/-- The quantisation rule exactly as claimed by the specification:
`bin = floor(direction * 4 / pi + 0.5)`, values `>= 4` wrapping to bin `0`. -/
def nmsSpecBin (dir : ℚ) : ℤ :=
  let b := ⌊dir * 4 * M_1_PIF + 1 / 2⌋
  if 4 ≤ b then 0 else b

/-- The two compared neighbours per bin, exactly as claimed by the
specification: bin 0 left/right, bin 1 up-right/down-left, bin 2 up/down,
bin 3 up-left/down-right (`y` grows downward). -/
def nmsSpecAxis (b : ℤ) : Pos × Pos :=
  if b = 0 then ((-1, 0), (1, 0))
  else if b = 1 then ((1, -1), (-1, 1))
  else if b = 2 then ((0, -1), (0, 1))
  else (((-1, -1) : Pos), ((1, 1) : Pos))

/-- Non-maximum suppression as described by the specification sentences of
claim C2 (to be compared against `nonMaximumSuppression`). -/
def nmsSpec (gradient direction : Plane) (w h : ℕ) : Plane := fun p =>
  if interior w h p then
    let a := nmsSpecAxis (nmsSpecBin (direction p))
    if gradient (p + a.1) ≤ gradient p ∧ gradient (p + a.2) ≤ gradient p then
      gradient p
    else -fltMax
  else -fltMax

/-! ### Hysteresis (lines 742-770)

The source threads a `Stack` record (visit map `map`, coordinate array `pos`,
top index `index`) together with the in-place mutated `blur` buffer.  The
embedding bundles both into one state record; `stack` is the live contents of
`pos[0..index]` (head = top), so `index = stack.length - 1` and a `push`
is a `cons`.  Two ghost counters record the safety facts claim C3 is about:
`pushes` counts every `push` performed and `maxLen` the largest stack size
ever reached. -/

/-- State of one `hysteresis` call. -/
structure HState where
  blur : Plane
  map : Pos → Bool
  stack : List Pos
  pushes : ℕ
  maxLen : ℕ

/-- The body executed for every newly confirmed pixel (lines 751-753 and
761-763): `blur[...] = FLT_MAX; stack.map[...] = UINT8_MAX; push(stack, x, y)`. -/
def confirmPush (st : HState) (p : Pos) : HState :=
  { blur := Function.update st.blur p fltMax
    map := Function.update st.map p true
    stack := p :: st.stack
    pushes := st.pushes + 1
    maxLen := max st.maxLen (st.stack.length + 1) }

/-- One neighbour check of the flood-fill loop (lines 759-764):
`if (blur[...] >= t_l && !stack.map[...]) { confirm and push }`. -/
def visit (t_l : ℚ) (st : HState) (q : Pos) : HState :=
  if t_l ≤ st.blur q ∧ st.map q = false then confirmPush st q else st

/-- The nine cells scanned by the `yy = y-1..y+1`, `xx = x-1..x+1` loops of
lines 758-759, in source order (the centre cell is scanned too; it is always
already marked). -/
def neighborsOf (p : Pos) : List Pos :=
  [(p.1 - 1, p.2 - 1), (p.1, p.2 - 1), (p.1 + 1, p.2 - 1),
   (p.1 - 1, p.2), (p.1, p.2), (p.1 + 1, p.2),
   (p.1 - 1, p.2 + 1), (p.1, p.2 + 1), (p.1 + 1, p.2 + 1)]

/-- Processing of one popped coordinate: scan its 3×3 neighbourhood. -/
def expand (t_l : ℚ) (st : HState) (p : Pos) : HState :=
  (neighborsOf p).foldl (visit t_l) st

/-- The `while (stack.index > -1)` loop (lines 755-767), with explicit fuel.
`hysteresis` runs it with fuel `w * h`, which `drain_spec` proves is enough
for the stack to empty (the loop in the source is unbounded; each iteration
pops one coordinate). -/
def drain (t_l : ℚ) : ℕ → HState → HState
  | 0, st => st
  | fuel + 1, st =>
    match st.stack with
    | [] => st
    | p :: rest => drain t_l fuel (expand t_l { st with stack := rest } p)

/-- The body of the seed scan for one interior pixel (lines 747-767):
skip if below `t_h` or already visited, otherwise confirm, push and flood. -/
def seedVisit (t_h t_l : ℚ) (fuel : ℕ) (st : HState) (p : Pos) : HState :=
  if st.blur p < t_h ∨ st.map p = true then st
  else drain t_l fuel (confirmPush st p)

/-- Interior pixels in the scan order of the seed loops
(`y = 1..height-2` outer, `x = 1..width-2` inner). -/
def interiorScan (w h : ℕ) : List Pos :=
  (List.range (h - 2)).flatMap fun (j : ℕ) =>
    (List.range (w - 2)).map fun (i : ℕ) => ((i : ℤ) + 1, (j : ℤ) + 1)

/-- `hysteresis(blur, stack, width, height, blurStride, t_h, t_l)`:
the visit map is zeroed and the stack emptied (lines 743-744), then every
interior pixel is tried as a seed. -/
def hysteresis (B : Plane) (w h : ℕ) (t_h t_l : ℚ) : HState :=
  (interiorScan w h).foldl (seedVisit t_h t_l (w * h)) ⟨B, fun _ => false, [], 0, 0⟩

/-- 8-adjacency (Chebyshev distance 1), as in the claim's
"8-connected chain". -/
def adjacent (p q : Pos) : Prop :=
  p ≠ q ∧ |q.1 - p.1| ≤ 1 ∧ |q.2 - p.2| ≤ 1

instance (p q : Pos) : Decidable (adjacent p q) := by
  unfold adjacent; infer_instance

/-- The specification's double-threshold connectivity: a pixel is reachable
iff an 8-connected chain of pixels with suppressed-map values `≥ t_l` links it
to some interior pixel with value `≥ t_h`. -/
inductive Reach (B : Plane) (w h : ℕ) (t_h t_l : ℚ) : Pos → Prop where
  | seed (p : Pos) : interior w h p → t_h ≤ B p → Reach B w h t_h t_l p
  | step (p q : Pos) : Reach B w h t_h t_l p → adjacent p q → t_l ≤ B q →
      Reach B w h t_h t_l q

/-- The interior pixels as a finite set (for counting arguments). -/
def interiorFinset (w h : ℕ) : Finset Pos :=
  Finset.Icc (1 : ℤ) ((w : ℤ) - 2) ×ˢ Finset.Icc (1 : ℤ) ((h : ℤ) - 2)

/-- Number of marked (visited) interior pixels. -/
def markedCard (w h : ℕ) (st : HState) : ℕ :=
  ((interiorFinset w h).filter fun p => st.map p = true).card

/-- Number of unmarked interior pixels. -/
def unmarkedCard (w h : ℕ) (st : HState) : ℕ :=
  ((interiorFinset w h).filter fun p => st.map p = false).card

/-- Termination measure of the flood-fill loop: unmarked interior pixels plus
live stack entries.  Each loop iteration decreases it by exactly one. -/
def hmeasure (w h : ℕ) (st : HState) : ℕ :=
  unmarkedCard w h st + st.stack.length

/-- Everything the flood fill maintains, relative to the original buffer `B`. -/
structure HInv (B : Plane) (w h : ℕ) (t_h t_l : ℚ) (st : HState) : Prop where
  blurEq : ∀ p, st.blur p = if st.map p then fltMax else B p
  reach : ∀ p, st.map p = true → Reach B w h t_h t_l p
  mapInterior : ∀ p, st.map p = true → interior w h p
  stackMarked : ∀ p ∈ st.stack, st.map p = true
  nodup : st.stack.Nodup
  pushesEq : st.pushes = markedCard w h st
  lenLe : st.stack.length ≤ markedCard w h st
  maxLenLe : st.maxLen ≤ (interiorFinset w h).card

/-- Saturation: every marked pixel that is no longer on the stack has had all
its neighbours processed.  This is the loop's partial-correctness core. -/
def Sat (B : Plane) (t_l : ℚ) (st : HState) : Prop :=
  ∀ a, st.map a = true → a ∉ st.stack →
    ∀ q ∈ neighborsOf a, t_l ≤ B q → st.map q = true

/-! ### The per-plane pipeline (`process`, lines 820-867)

The scalar (`#else`) implementations are embedded.  `std::sqrt` and
`std::atan2` are threaded as function parameters (`sqrtF`, `atan2F`): none of
the pipeline-level claims depends on their values, only on where they are
used.  The Gaussian weight table is likewise passed as a function
`ℤ → ℚ` indexed by tap offset (the source array stores offset `k` at index
`k + radius` and passes `weights + radius` to the horizontal pass). -/

/-- Boundary extension used by both blur passes.  Vertically it is realised by
the sliding window of row pointers (`_srcp[radius - i] = _srcp[radius + i - 1]`
initialisation and the end-of-plane pointer retreat, lines 532-535/552-555);
horizontally by the halo writes `buffer[-i] = buffer[i - 1]`,
`buffer[width - 1 + i] = buffer[width - i]` (lines 511-514).  Both give
whole-sample reflection with the edge sample repeated:
`..., 1, 0 | 0, 1, ..., n-1 | n-1, n-2, ...`. -/
def extIdx (n : ℕ) (t : ℤ) : ℤ :=
  if t < 0 then -t - 1 else if (n : ℤ) ≤ t then 2 * (n : ℤ) - 1 - t else t

/-- The separable Gaussian blur (`gaussianBlurVertical` + the per-row
`gaussianBlurHorizontal`, lines 510-596): a vertical pass over extended rows
followed by a horizontal pass over the extended intermediate row.  The float
specialisation adds `offset` to every source sample before weighting
(line 579); integer specialisations have no offset term, which coincides with
passing `off = 0`. -/
def gaussianBlurPlane (src : Plane) (wts : ℤ → ℚ) (r : ℤ) (w h : ℕ) (off : ℚ) : Plane :=
  fun p =>
    ∑ i in Finset.Icc (-r) r,
      (∑ j in Finset.Icc (-r) r,
        (src (extIdx w (p.1 + i), extIdx h (p.2 + j)) + off) * wts j) * wts i

/-- Reads of `detectEdge` (lines 598-645): columns are replicated one past
each edge by the halo writes `srcp[-1] = srcp[0]`, `srcp[width] = srcp[width-1]`,
and the row pointers `srcpp`/`srcpn` clamp at the first and last row. -/
def dE (b : Plane) (w h : ℕ) (x y : ℤ) : ℚ :=
  b (max 0 (min x ((w : ℤ) - 1)), max 0 (min y ((h : ℤ) - 1)))

/-- The horizontal derivative `gx` of `detectEdge` for each operator
(lines 614-625). -/
def edgeGX (b : Plane) (w h : ℕ) (op : ℤ) (p : Pos) : ℚ :=
  if op = 0 then dE b w h (p.1 + 1) p.2 - dE b w h (p.1 - 1) p.2
  else if op = 1 then
    (dE b w h (p.1 + 1) (p.2 - 1) + dE b w h (p.1 + 1) p.2 + dE b w h (p.1 + 1) (p.2 + 1)
      - dE b w h (p.1 - 1) (p.2 - 1) - dE b w h (p.1 - 1) p.2
      - dE b w h (p.1 - 1) (p.2 + 1)) / 2
  else if op = 2 then
    dE b w h (p.1 + 1) (p.2 - 1) + 2 * dE b w h (p.1 + 1) p.2 + dE b w h (p.1 + 1) (p.2 + 1)
      - dE b w h (p.1 - 1) (p.2 - 1) - 2 * dE b w h (p.1 - 1) p.2
      - dE b w h (p.1 - 1) (p.2 + 1)
  else
    3 * dE b w h (p.1 + 1) (p.2 - 1) + 10 * dE b w h (p.1 + 1) p.2
      + 3 * dE b w h (p.1 + 1) (p.2 + 1)
      - 3 * dE b w h (p.1 - 1) (p.2 - 1) - 10 * dE b w h (p.1 - 1) p.2
      - 3 * dE b w h (p.1 - 1) (p.2 + 1)

/-- The vertical derivative `gy` of `detectEdge` for each operator
(lines 614-625); `srcpp` is row `y - 1`, `srcpn` is row `y + 1`. -/
def edgeGY (b : Plane) (w h : ℕ) (op : ℤ) (p : Pos) : ℚ :=
  if op = 0 then dE b w h p.1 (p.2 - 1) - dE b w h p.1 (p.2 + 1)
  else if op = 1 then
    (dE b w h (p.1 - 1) (p.2 - 1) + dE b w h p.1 (p.2 - 1) + dE b w h (p.1 + 1) (p.2 - 1)
      - dE b w h (p.1 - 1) (p.2 + 1) - dE b w h p.1 (p.2 + 1)
      - dE b w h (p.1 + 1) (p.2 + 1)) / 2
  else if op = 2 then
    dE b w h (p.1 - 1) (p.2 - 1) + 2 * dE b w h p.1 (p.2 - 1) + dE b w h (p.1 + 1) (p.2 - 1)
      - dE b w h (p.1 - 1) (p.2 + 1) - 2 * dE b w h p.1 (p.2 + 1)
      - dE b w h (p.1 + 1) (p.2 + 1)
  else
    3 * dE b w h (p.1 - 1) (p.2 - 1) + 10 * dE b w h p.1 (p.2 - 1)
      + 3 * dE b w h (p.1 + 1) (p.2 - 1)
      - 3 * dE b w h (p.1 - 1) (p.2 + 1) - 10 * dE b w h p.1 (p.2 + 1)
      - 3 * dE b w h (p.1 + 1) (p.2 + 1)

/-- `gradient[x] = std::sqrt(gx * gx + gy * gy)` (line 628). -/
def edgeGradient (sqrtF : ℚ → ℚ) (b : Plane) (w h : ℕ) (op : ℤ) : Plane := fun p =>
  sqrtF (edgeGX b w h op p * edgeGX b w h op p + edgeGY b w h op p * edgeGY b w h op p)

/-- `dr = std::atan2(gy, gx); if (dr < 0.f) dr += M_PIF; direction[x] = dr`
(lines 631-634), with `atan2F` standing for the library `atan2`. -/
def edgeDirection (atan2F : ℚ → ℚ → ℚ) (b : Plane) (w h : ℕ) (op : ℤ) : Plane := fun p =>
  if atan2F (edgeGY b w h op p) (edgeGX b w h op p) < 0 then
    atan2F (edgeGY b w h op p) (edgeGX b w h op p) + M_PIF
  else atan2F (edgeGY b w h op p) (edgeGX b w h op p)

/-- `outputGB<T>` for integer `T` (lines 669-679):
`dstp[x] = std::min(static_cast<int>(blur[x] + 0.5f), peak)`. -/
def outputGBInt (blur : Plane) (peak : ℤ) : Plane := fun p =>
  ((min (truncQ (blur p + 1 / 2)) peak : ℤ) : ℚ)

/-- `outputGB<float>` (lines 681-691): `dstp[x] = std::min(blur[x] - offset, upper)`. -/
def outputGBFloat (blur : Plane) (off upper : ℚ) : Plane := fun p =>
  min (blur p - off) upper

/-- `binarizeCE<T>` for integer `T` (lines 693-703):
`dstp[x] = (blur[x] == FLT_MAX) ? peak : 0`. -/
def binarizeCEInt (blur : Plane) (peak : ℤ) : Plane := fun p =>
  if blur p = fltMax then (peak : ℚ) else 0

/-- `binarizeCE<float>` (lines 705-715): `(blur[x] == FLT_MAX) ? upper : lower`. -/
def binarizeCEFloat (blur : Plane) (lower upper : ℚ) : Plane := fun p =>
  if blur p = fltMax then upper else lower

/-- `discretizeGM<T>` for integer `T` (lines 717-727):
`dstp[x] = std::min(static_cast<int>(gradient[x] * magnitude + 0.5f), peak)`. -/
def discretizeGMInt (gradient : Plane) (magnitude : ℚ) (peak : ℤ) : Plane := fun p =>
  ((min (truncQ (gradient p * magnitude + 1 / 2)) peak : ℤ) : ℚ)

/-- `discretizeGM<float>` (lines 729-739):
`dstp[x] = std::min(gradient[x] * magnitude - offset, upper)`. -/
def discretizeGMFloat (gradient : Plane) (magnitude off upper : ℚ) : Plane := fun p =>
  min (gradient p * magnitude - off) upper

/-- `discretizeDM_T<T>` for integer `T` (lines 772-783):
`dstp[x] = (blur[x] == FLT_MAX) ? getBin<T>(direction[x], bins) : 0`. -/
def discretizeDMTInt (blur direction : Plane) (bins : ℤ) : Plane := fun p =>
  if blur p = fltMax then ((getBinInt (direction p) bins : ℤ) : ℚ) else 0

/-- `discretizeDM_T<float>` (lines 785-796):
`dstp[x] = (blur[x] == FLT_MAX) ? getBin<float>(direction[x], bins) - offset : lower`. -/
def discretizeDMTFloat (blur direction : Plane) (bins : ℤ) (off lower : ℚ) : Plane := fun p =>
  if blur p = fltMax then getBinFloat (direction p) bins - off else lower

/-- `discretizeDM<T>` for integer `T` (lines 798-807). -/
def discretizeDMInt (direction : Plane) (bins : ℤ) : Plane := fun p =>
  ((getBinInt (direction p) bins : ℤ) : ℚ)

/-- `discretizeDM<float>` (lines 809-818). -/
def discretizeDMFloat (direction : Plane) (bins : ℤ) (off : ℚ) : Plane := fun p =>
  getBinFloat (direction p) bins - off

/-- The filter state assembled by `tcannyCreate` (struct `TCannyData`,
lines 36-53; the x86-only function-pointer fields dispatch to the same
per-depth routines the scalar path selects by template instantiation, and are
represented here by the `isFloat` flag). -/
structure TCannyConfig where
  t_h : ℚ
  t_l : ℚ
  mode : ℤ
  op : ℤ
  process : Fin 3 → Bool
  radius : ℤ
  bins : ℤ
  magnitude : ℚ
  peak : ℤ
  offset : Fin 3 → ℚ
  lower : Fin 3 → ℚ
  upper : Fin 3 → ℚ
  isFloat : Bool
  numPlanes : ℕ

/-- The body of `process<T>` for one selected plane (lines 825-864): blur,
then edge detection, then — only when `!(mode & 1)`, i.e. `mode % 2 == 0` —
non-maximum suppression and hysteresis overwrite the blur buffer, and finally
the mode-dispatched output encoder writes the destination plane.  (The source
guards `detectEdge` by `mode != -1` and the direction computation by
`mode != 1`; computing the unused buffers is observationally identical since
no encoder reads them in those modes.) -/
def processPlane (c : TCannyConfig) (wts : ℤ → ℚ) (sqrtF : ℚ → ℚ)
    (atan2F : ℚ → ℚ → ℚ) (w h : ℕ) (plane : Fin 3) (src : Plane) : Plane :=
  let off := if c.isFloat then c.offset plane else 0
  let blur := gaussianBlurPlane src wts c.radius w h off
  let gradient := edgeGradient sqrtF blur w h c.op
  let direction := edgeDirection atan2F blur w h c.op
  let blur2 := if c.mode % 2 = 0 then
      (hysteresis (nonMaximumSuppression gradient direction w h) w h c.t_h c.t_l).blur
    else blur
  if c.mode = -1 then
    (if c.isFloat then outputGBFloat blur2 (c.offset plane) (c.upper plane)
     else outputGBInt blur2 c.peak)
  else if c.mode = 0 then
    (if c.isFloat then binarizeCEFloat blur2 (c.lower plane) (c.upper plane)
     else binarizeCEInt blur2 c.peak)
  else if c.mode = 1 then
    (if c.isFloat then discretizeGMFloat gradient c.magnitude (c.offset plane) (c.upper plane)
     else discretizeGMInt gradient c.magnitude c.peak)
  else if c.mode = 2 then
    (if c.isFloat then discretizeDMTFloat blur2 direction c.bins (c.offset plane) (c.lower plane)
     else discretizeDMTInt blur2 direction c.bins)
  else
    (if c.isFloat then discretizeDMFloat direction c.bins (c.offset plane)
     else discretizeDMInt direction c.bins)

/-- `newVideoFrame2` with `fr[plane] = process[plane] ? nullptr : src`
(lines 885-887): planes whose entry is `src` are copied from the source
frame; selected planes start uninitialised (modelled as the zero plane). -/
def tcannyNewVideoFrame (proc : Fin 3 → Bool) (src : Fin 3 → Plane) : Fin 3 → Plane :=
  fun i => if proc i then (fun _ => 0) else src i

/-- One iteration of the plane loop of `process<T>` (lines 823-865): a
selected plane is overwritten with the pipeline result, others are left
alone. -/
def processStep (c : TCannyConfig) (wts : ℤ → ℚ) (sqrtF : ℚ → ℚ)
    (atan2F : ℚ → ℚ → ℚ) (dims : Fin 3 → ℕ × ℕ) (src : Fin 3 → Plane)
    (dst : Fin 3 → Plane) (i : Fin 3) : Fin 3 → Plane :=
  if c.process i then
    Function.update dst i
      (processPlane c wts sqrtF atan2F (dims i).1 (dims i).2 i (src i))
  else dst

/-- The destination frame produced by `tcannyGetFrame` + `process<T>`
(lines 874-959): start from `newVideoFrame2`'s frame, then run the plane loop
`for (plane = 0; plane < numPlanes; plane++)`.  `dims` gives each plane's
`getFrameWidth`/`getFrameHeight`. -/
def processFrame (c : TCannyConfig) (wts : ℤ → ℚ) (sqrtF : ℚ → ℚ)
    (atan2F : ℚ → ℚ → ℚ) (dims : Fin 3 → ℕ × ℕ) (src : Fin 3 → Plane) :
    Fin 3 → Plane :=
  ((List.finRange 3).filter fun i => (i : ℕ) < c.numPlanes).foldl
    (processStep c wts sqrtF atan2F dims src)
    (tcannyNewVideoFrame c.process src)

/-- Replacing only the two thresholds of a configuration. -/
def setThresholds (c : TCannyConfig) (th tl : ℚ) : TCannyConfig :=
  { c with t_h := th, t_l := tl }

/-! ### `tcannyCreate` (lines 970-1113) -/

/-- The inputs read by `tcannyCreate`, after the `propGet*` defaulting
(absent `sigma`/`t_h`/`t_l`/`op`/`gmmax` default to 1.5 / 8 / 1 / 1 / 50,
absent `mode` to 0, an absent `planes` array is the empty list). -/
structure CreateParams where
  sigma : ℚ
  t_h : ℚ
  t_l : ℚ
  mode : ℤ
  op : ℤ
  gmmax : ℚ
  constantFormat : Bool
  isInteger : Bool
  bitsPerSample : ℤ
  numPlanes : ℕ
  isRGB : Bool
  planes : List ℤ

/-- `scale(val, bits) = val * ((1 << bits) - 1) / 255.f` (lines 69-71). -/
def scale (val : ℚ) (bits : ℤ) : ℚ := val * (2 ^ bits.toNat - 1) / 255

/-- The radius produced by `gaussianWeights` (lines 73-75), over the exact
rational sigma (the weight values themselves are modelled in ℝ, see
`gaussianWeights`). -/
def gwRadiusQ (sigma : ℚ) : ℤ :=
  (max (truncQ (sigma * 3 + 1 / 2)) 1 * 2 + 1) / 2

/-- The `planes` parsing loop (lines 1031-1052): `process[i] = m <= 0`
initialisation, then per-element range and duplicate checks. -/
def planesFold (p : CreateParams) : Except String (ℤ → Bool) :=
  p.planes.foldlM
    (fun (acc : ℤ → Bool) n =>
      if n < 0 ∨ (p.numPlanes : ℤ) ≤ n then
        Except.error "TCanny: plane index out of range"
      else if acc n then Except.error "TCanny: plane specified twice"
      else Except.ok (Function.update acc n true))
    (fun _ => p.planes.isEmpty)

/-- The state assembled on the success path of `tcannyCreate`
(lines 1054-1112).  On the integer path the source never initialises
`offset`/`lower`/`upper` (they are unread by the integer encoders); on the
float path `peak` is uninitialised (unread by the float encoders) and
`offset`/`lower`/`upper` are only set for selected planes.  Unset fields are
modelled as 0. -/
def mkConfig (p : CreateParams) (proc : ℤ → Bool) : TCannyConfig :=
  if p.isInteger then
    { t_h := scale p.t_h p.bitsPerSample
      t_l := scale p.t_l p.bitsPerSample
      mode := p.mode
      op := p.op
      process := fun i => proc (i.val : ℤ)
      radius := gwRadiusQ p.sigma
      bins := 2 ^ p.bitsPerSample.toNat
      magnitude := 255 / p.gmmax
      peak := 2 ^ p.bitsPerSample.toNat - 1
      offset := fun _ => 0
      lower := fun _ => 0
      upper := fun _ => 0
      isFloat := false
      numPlanes := p.numPlanes }
  else
    { t_h := p.t_h / 255
      t_l := p.t_l / 255
      mode := p.mode
      op := p.op
      process := fun i => proc (i.val : ℤ)
      radius := gwRadiusQ p.sigma
      bins := 1
      magnitude := 255 / p.gmmax
      peak := 0
      offset := fun i =>
        if proc (i.val : ℤ) then (if i.val = 0 ∨ p.isRGB then 0 else 1 / 2) else 0
      lower := fun i =>
        if proc (i.val : ℤ) then (if i.val = 0 ∨ p.isRGB then 0 else -(1 / 2)) else 0
      upper := fun i =>
        if proc (i.val : ℤ) then (if i.val = 0 ∨ p.isRGB then 1 else 1 / 2) else 0
      isFloat := true
      numPlanes := p.numPlanes }

/-- `tcannyCreate` (lines 970-1113): the validation chain in source order —
sigma, threshold ordering, mode, op, gmmax, sample format, plane list — each
failure aborting construction with its message before the weight table is
built; on success the assembled filter state is returned.  (The only failure
past validation in the source is an out-of-memory `new`, which the embedding
does not model.) -/
def tcannyCreate (p : CreateParams) : Except String TCannyConfig :=
  if p.sigma ≤ 0 then Except.error "TCanny: sigma must be greater than 0.0"
  else if p.t_h ≤ p.t_l then Except.error "TCanny: t_h must be greater than t_l"
  else if p.mode < -1 ∨ 3 < p.mode then
    Except.error "TCanny: mode must be -1, 0, 1, 2 or 3"
  else if p.op < 0 ∨ 3 < p.op then Except.error "TCanny: op must be 0, 1, 2 or 3"
  else if p.gmmax < 1 then
    Except.error "TCanny: gmmax must be greater than or equal to 1.0"
  else if ¬p.constantFormat ∨ (p.isInteger ∧ 16 < p.bitsPerSample)
      ∨ (¬p.isInteger ∧ p.bitsPerSample ≠ 32) then
    Except.error "TCanny: only constant format 8-16 bits integer and 32 bits float input supported"
  else
    match planesFold p with
    | Except.error e => Except.error e
    | Except.ok proc => Except.ok (mkConfig p proc)

/-! ### Gaussian kernel builder (lines 73-92) and edge direction (lines 628-635)

These two pieces are about the values of `std::exp` and `std::atan2`, so they
are modelled over `ℝ` with the exact library functions. -/

/-- C `static_cast<int>` on a real: truncation toward zero. -/
noncomputable def truncR (x : ℝ) : ℤ := if x < 0 then ⌈x⌉ else ⌊x⌋

/-- `diameter = std::max(static_cast<int>(sigma * 3.f + 0.5f), 1) * 2 + 1`
(line 74). -/
noncomputable def gwDiameter (sigma : ℝ) : ℤ :=
  max (truncR (sigma * 3 + 1 / 2)) 1 * 2 + 1

/-- `*radius = diameter / 2` (line 75). -/
noncomputable def gwRadius (sigma : ℝ) : ℤ := gwDiameter sigma / 2

/-- The unnormalised weight `w = std::exp(-(k * k) / (2.f * sigma * sigma))`
(line 83). -/
noncomputable def gaussianWeight (sigma : ℝ) (k : ℤ) : ℝ :=
  Real.exp (-(k * k) / (2 * sigma * sigma))

/-- The running `sum` accumulated over `k = -radius .. radius` (lines 82-86). -/
noncomputable def gwSum (sigma : ℝ) : ℝ :=
  ∑ k in Finset.Icc (-gwRadius sigma) (gwRadius sigma), gaussianWeight sigma k

/-- The stored kernel after the normalisation loop `weights[k] /= sum`
(lines 88-89), indexed by the offset `k ∈ [-radius, radius]`
(the array stores offset `k` at position `k + radius`). -/
noncomputable def gaussianWeights (sigma : ℝ) (k : ℤ) : ℝ :=
  gaussianWeight sigma k / gwSum sigma

/-- C `std::atan2(y, x)`, modelled as the argument of the complex number
`x + y·i`; this matches `atan2` on every quadrant and on the axes, including
`atan2(0, 0) = 0`, with range `(-π, π]`. -/
noncomputable def atan2R (y x : ℝ) : ℝ := Complex.arg ⟨x, y⟩

/-- The direction computation of `detectEdge` (lines 631-634):
`dr = std::atan2(gy, gx); if (dr < 0.f) dr += M_PIF` (the float constant
`M_PIF` is modelled as real π). -/
noncomputable def directionOf (gx gy : ℝ) : ℝ :=
  if atan2R gy gx < 0 then atan2R gy gx + Real.pi else atan2R gy gx

/-! ### Proofs -/

theorem truncQ_of_nonneg {q : ℚ} (h : 0 ≤ q) : truncQ q = ⌊q⌋ := by
  unfold truncQ
  rw [if_neg (not_lt.mpr h)]

theorem M_1_PIF_pos : 0 < M_1_PIF := by norm_num [M_1_PIF]

theorem fltMax_pos : 0 < fltMax := by norm_num [fltMax]

theorem mem_interiorFinset {w h : ℕ} {p : Pos} :
    p ∈ interiorFinset w h ↔ interior w h p := by
  unfold interiorFinset interior
  simp only [Finset.mem_product, Finset.mem_Icc]
  omega

theorem interiorFinset_card_le (w h : ℕ) : (interiorFinset w h).card ≤ w * h := by
  unfold interiorFinset
  rw [Finset.card_product, Int.card_Icc, Int.card_Icc]
  have h1 : ((w : ℤ) - 2 + 1 - 1).toNat ≤ w := by omega
  have h2 : ((h : ℤ) - 2 + 1 - 1).toNat ≤ h := by omega
  exact Nat.mul_le_mul h1 h2

theorem mem_neighborsOf {p q : Pos} :
    q ∈ neighborsOf p ↔ |q.1 - p.1| ≤ 1 ∧ |q.2 - p.2| ≤ 1 := by
  unfold neighborsOf
  simp only [List.mem_cons, List.mem_singleton, List.not_mem_nil, or_false,
    Prod.ext_iff]
  rw [abs_le, abs_le]
  omega

theorem self_mem_neighborsOf (p : Pos) : p ∈ neighborsOf p := by
  rw [mem_neighborsOf]; simp

theorem adjacent_iff_mem {p q : Pos} :
    adjacent p q ↔ q ∈ neighborsOf p ∧ q ≠ p := by
  unfold adjacent
  rw [mem_neighborsOf, ne_comm]
  tauto

theorem neighborsOf_inPlane {w h : ℕ} {p q : Pos}
    (hp : interior w h p) (hq : q ∈ neighborsOf p) : inPlane w h q := by
  rw [mem_neighborsOf, abs_le, abs_le] at hq
  unfold interior at hp
  unfold inPlane
  omega

theorem confirmPush_map_apply (st : HState) (q a : Pos) :
    (confirmPush st q).map a = if a = q then true else st.map a := by
  simp [confirmPush, Function.update_apply]

theorem confirmPush_blur_apply (st : HState) (q a : Pos) :
    (confirmPush st q).blur a = if a = q then fltMax else st.blur a := by
  simp [confirmPush, Function.update_apply]

theorem confirmPush_markedCard {w h : ℕ} {st : HState} {q : Pos}
    (hqI : interior w h q) (hqm : st.map q = false) :
    markedCard w h (confirmPush st q) = markedCard w h st + 1 := by
  unfold markedCard
  have hset : ((interiorFinset w h).filter fun p => (confirmPush st q).map p = true)
      = insert q ((interiorFinset w h).filter fun p => st.map p = true) := by
    ext a
    simp only [Finset.mem_filter, Finset.mem_insert, confirmPush_map_apply]
    by_cases ha : a = q
    · subst ha
      simp [mem_interiorFinset.mpr hqI]
    · simp [ha]
  rw [hset, Finset.card_insert_of_not_mem]
  simp [Finset.mem_filter, hqm]

theorem confirmPush_unmarkedCard {w h : ℕ} {st : HState} {q : Pos}
    (hqI : interior w h q) (hqm : st.map q = false) :
    unmarkedCard w h (confirmPush st q) + 1 = unmarkedCard w h st := by
  unfold unmarkedCard
  have hset : ((interiorFinset w h).filter fun p => (confirmPush st q).map p = false)
      = ((interiorFinset w h).filter fun p => st.map p = false).erase q := by
    ext a
    simp only [Finset.mem_filter, Finset.mem_erase, confirmPush_map_apply]
    by_cases ha : a = q
    · subst ha; simp
    · simp [ha]
  have hqmem : q ∈ (interiorFinset w h).filter fun p => st.map p = false := by
    simp [Finset.mem_filter, mem_interiorFinset.mpr hqI, hqm]
  rw [hset, Finset.card_erase_of_mem hqmem]
  have := Finset.card_pos.mpr ⟨q, hqmem⟩
  omega

theorem markedCard_le (w h : ℕ) (st : HState) :
    markedCard w h st ≤ (interiorFinset w h).card :=
  Finset.card_filter_le _ _

theorem unmarkedCard_le (w h : ℕ) (st : HState) :
    unmarkedCard w h st ≤ (interiorFinset w h).card :=
  Finset.card_filter_le _ _

/-- Confirming and pushing a reachable, unmarked interior pixel preserves the
flood-fill invariant. -/
theorem confirmPush_HInv {B : Plane} {w h : ℕ} {t_h t_l : ℚ} {st : HState} {q : Pos}
    (hI : HInv B w h t_h t_l st) (hqI : interior w h q) (hqm : st.map q = false)
    (hR : Reach B w h t_h t_l q) : HInv B w h t_h t_l (confirmPush st q) := by
  have hqnotstack : q ∉ st.stack := fun hmem2 => by
    rw [hI.stackMarked q hmem2] at hqm; exact Bool.noConfusion hqm
  refine ⟨?_, ?_, ?_, ?_, ?_, ?_, ?_, ?_⟩
  · intro p
    rw [confirmPush_blur_apply, confirmPush_map_apply]
    by_cases hp : p = q
    · simp [hp]
    · simp only [if_neg hp]; exact hI.blurEq p
  · intro p hp
    rw [confirmPush_map_apply] at hp
    by_cases hpq : p = q
    · exact hpq ▸ hR
    · exact hI.reach p (by rwa [if_neg hpq] at hp)
  · intro p hp
    rw [confirmPush_map_apply] at hp
    by_cases hpq : p = q
    · exact hpq ▸ hqI
    · exact hI.mapInterior p (by rwa [if_neg hpq] at hp)
  · intro p hp
    rw [confirmPush_map_apply]
    simp only [confirmPush] at hp
    rcases List.mem_cons.mp hp with hpq | hpst
    · simp [hpq]
    · by_cases hpq : p = q
      · simp [hpq]
      · rw [if_neg hpq]; exact hI.stackMarked p hpst
  · simpa [confirmPush] using ⟨hqnotstack, hI.nodup⟩
  · rw [confirmPush_markedCard hqI hqm]
    simp only [confirmPush]
    exact congrArg (· + 1) hI.pushesEq
  · rw [confirmPush_markedCard hqI hqm]
    simp only [confirmPush, List.length_cons]
    exact Nat.add_le_add_right hI.lenLe 1
  · simp only [confirmPush]
    refine max_le hI.maxLenLe ?_
    calc st.stack.length + 1 ≤ markedCard w h st + 1 :=
          Nat.add_le_add_right hI.lenLe 1
      _ = markedCard w h (confirmPush st q) :=
          (confirmPush_markedCard hqI hqm).symm
      _ ≤ (interiorFinset w h).card := markedCard_le w h _

/-- Effect of folding `visit` over (a suffix of) the neighbour list of a
marked interior pixel `s`: the invariant is preserved, marks are monotone,
every listed neighbour with original value `≥ t_l` ends up marked, the stack
only grows and only by freshly marked pixels, and the termination measure is
unchanged. -/
theorem foldl_visit_spec (B : Plane) (w h : ℕ) (t_h t_l : ℚ)
    (hBorder : ∀ p, inPlane w h p → ¬interior w h p → B p < t_l)
    (s : Pos) (hsR : Reach B w h t_h t_l s) (hsI : interior w h s) :
    ∀ (L : List Pos) (st : HState), (∀ q ∈ L, q ∈ neighborsOf s) →
      st.map s = true → HInv B w h t_h t_l st →
      HInv B w h t_h t_l (L.foldl (visit t_l) st)
      ∧ (∀ p, st.map p = true → (L.foldl (visit t_l) st).map p = true)
      ∧ (∀ q ∈ L, t_l ≤ B q → (L.foldl (visit t_l) st).map q = true)
      ∧ (∀ x ∈ (L.foldl (visit t_l) st).stack, x ∈ st.stack ∨ st.map x = false)
      ∧ (∀ x ∈ st.stack, x ∈ (L.foldl (visit t_l) st).stack)
      ∧ (∀ x, (L.foldl (visit t_l) st).map x = true →
          st.map x = true ∨ x ∈ (L.foldl (visit t_l) st).stack)
      ∧ hmeasure w h (L.foldl (visit t_l) st) = hmeasure w h st := by
  intro L
  induction L with
  | nil =>
    intro st _ _ hI
    exact ⟨hI, fun _ hp => hp, fun q hq => absurd hq (List.not_mem_nil q),
      fun x hx => Or.inl hx, fun x hx => hx, fun x hx => Or.inl hx, rfl⟩
  | cons q L ih =>
    intro st hmem hsM hI
    rw [List.foldl_cons]
    by_cases hg : t_l ≤ st.blur q ∧ st.map q = false
    · have hv : visit t_l st q = confirmPush st q := by
        unfold visit; rw [if_pos hg]
      have hq : q ∈ neighborsOf s := hmem q (List.mem_cons_self q L)
      have hqP : inPlane w h q := neighborsOf_inPlane hsI hq
      have hBq : st.blur q = B q := by
        rw [hI.blurEq q, hg.2]; rfl
      have htl : t_l ≤ B q := hBq ▸ hg.1
      have hqI : interior w h q := by
        by_contra hni
        exact absurd htl (not_le.mpr (hBorder q hqP hni))
      have hqs : q ≠ s := by
        intro he; rw [he, hsM] at hg; exact Bool.noConfusion hg.2
      have hR : Reach B w h t_h t_l q :=
        Reach.step s q hsR (adjacent_iff_mem.mpr ⟨hq, hqs⟩) htl
      have hI' : HInv B w h t_h t_l (confirmPush st q) :=
        confirmPush_HInv hI hqI hg.2 hR
      have hsM' : (confirmPush st q).map s = true := by
        rw [confirmPush_map_apply, if_neg (Ne.symm hqs)]; exact hsM
      obtain ⟨A1, A2, A3, A4, A5, A6, A7⟩ :=
        ih (confirmPush st q) (fun r hr => hmem r (List.mem_cons_of_mem q hr)) hsM' hI'
      rw [hv]
      have hmono : ∀ p, st.map p = true → (confirmPush st q).map p = true := by
        intro p hp
        rw [confirmPush_map_apply]
        by_cases hpq : p = q
        · simp [hpq]
        · rwa [if_neg hpq]
      have hmeas : hmeasure w h (confirmPush st q) = hmeasure w h st := by
        have h1 := confirmPush_unmarkedCard hqI hg.2
        have h2 : (confirmPush st q).stack.length = st.stack.length + 1 := rfl
        unfold hmeasure
        omega
      refine ⟨A1, ?_, ?_, ?_, ?_, ?_, ?_⟩
      · exact fun p hp => A2 p (hmono p hp)
      · intro r hr htlr
        rcases List.mem_cons.mp hr with hrq | hrL
        · subst hrq
          exact A2 r (by rw [confirmPush_map_apply]; simp)
        · exact A3 r hrL htlr
      · intro x hx
        rcases A4 x hx with hx2 | hx2
        · simp only [confirmPush] at hx2
          rcases List.mem_cons.mp hx2 with hxq | hxst
          · exact Or.inr (hxq ▸ hg.2)
          · exact Or.inl hxst
        · rw [confirmPush_map_apply] at hx2
          by_cases hxq : x = q
          · rw [hxq, if_pos rfl] at hx2; exact Bool.noConfusion hx2
          · rw [if_neg hxq] at hx2; exact Or.inr hx2
      · intro x hx
        exact A5 x (by simp only [confirmPush]; exact List.mem_cons_of_mem q hx)
      · intro x hx
        rcases A6 x hx with hx2 | hx2
        · rw [confirmPush_map_apply] at hx2
          by_cases hxq : x = q
          · exact Or.inr (A5 x (by simp only [confirmPush]; rw [hxq]; exact List.mem_cons_self q _))
          · rw [if_neg hxq] at hx2; exact Or.inl hx2
        · exact Or.inr hx2
      · rw [A7, hmeas]
    · have hv : visit t_l st q = st := by
        unfold visit; rw [if_neg hg]
      rw [hv]
      obtain ⟨A1, A2, A3, A4, A5, A6, A7⟩ :=
        ih st (fun r hr => hmem r (List.mem_cons_of_mem q hr)) hsM hI
      refine ⟨A1, A2, ?_, A4, A5, A6, A7⟩
      intro r hr htlr
      rcases List.mem_cons.mp hr with hrq | hrL
      · subst hrq
        by_cases hm : st.map r = true
        · exact A2 r hm
        · exfalso
          have hm' : st.map r = false := by
            cases hmr : st.map r
            · rfl
            · exact absurd hmr hm
          have : st.blur r = B r := by rw [hI.blurEq r, hm']; rfl
          exact hg ⟨this ▸ htlr, hm'⟩
      · exact A3 r hrL htlr

/-- For a nonnegative direction, the code's truncating bin computation agrees
with the specification's floor-based one, and lands in `0..3`. -/
theorem getBinInt_eq_specBin {dir : ℚ} (h : 0 ≤ dir) :
    getBinInt dir 4 = nmsSpecBin dir ∧ 0 ≤ getBinInt dir 4 ∧ getBinInt dir 4 < 4 := by
  have harg : (0 : ℚ) ≤ dir * 4 * M_1_PIF + 1 / 2 := by
    have : (0 : ℚ) ≤ dir * 4 * M_1_PIF :=
      mul_nonneg (by linarith) (le_of_lt M_1_PIF_pos)
    linarith
  have hb : truncQ (dir * (4 : ℤ) * M_1_PIF + 1 / 2) = ⌊dir * 4 * M_1_PIF + 1 / 2⌋ := by
    rw [show ((4 : ℤ) : ℚ) = (4 : ℚ) by norm_num]
    exact truncQ_of_nonneg harg
  have hfl : 0 ≤ ⌊dir * 4 * M_1_PIF + 1 / 2⌋ := Int.floor_nonneg.mpr harg
  unfold getBinInt nmsSpecBin
  simp only [hb]
  refine ⟨trivial, ?_, ?_⟩ <;>
    [skip; skip] <;>
    by_cases h4 : (4 : ℤ) ≤ ⌊dir * 4 * M_1_PIF + 1 / 2⌋ <;>
    simp only [if_pos, if_neg, h4, if_true, if_false] <;> omega

theorem drain_zero (t_l : ℚ) (st : HState) : drain t_l 0 st = st := rfl

theorem drain_succ (t_l : ℚ) (n : ℕ) (st : HState) :
    drain t_l (n + 1) st =
      match st.stack with
      | [] => st
      | p :: rest => drain t_l n (expand t_l { st with stack := rest } p) := rfl

/-- The `while (stack.index > -1)` loop preserves the invariant and
saturation, marks monotonically, and empties the stack whenever the fuel is at
least the termination measure. -/
theorem drain_spec (B : Plane) (w h : ℕ) (t_h t_l : ℚ)
    (hBorder : ∀ p, inPlane w h p → ¬interior w h p → B p < t_l) :
    ∀ (fuel : ℕ) (st : HState), HInv B w h t_h t_l st →
      HInv B w h t_h t_l (drain t_l fuel st)
      ∧ (∀ p, st.map p = true → (drain t_l fuel st).map p = true)
      ∧ (Sat B t_l st → Sat B t_l (drain t_l fuel st))
      ∧ (hmeasure w h st ≤ fuel → (drain t_l fuel st).stack = []) := by
  intro fuel
  induction fuel with
  | zero =>
    intro st hI
    rw [drain_zero]
    refine ⟨hI, fun _ hp => hp, fun hs => hs, fun hm => ?_⟩
    unfold hmeasure at hm
    exact List.length_eq_zero.mp (by omega)
  | succ n ihn =>
    intro st hI
    rcases hstk : st.stack with _ | ⟨p, rest⟩
    · have he : drain t_l (n + 1) st = st := by rw [drain_succ, hstk]
      rw [he]
      exact ⟨hI, fun _ hp => hp, fun hs => hs, fun _ => hstk⟩
    · have he : drain t_l (n + 1) st =
          drain t_l n (expand t_l { st with stack := rest } p) := by
        rw [drain_succ, hstk]
      have hpM : st.map p = true :=
        hI.stackMarked p (by rw [hstk]; exact List.mem_cons_self p rest)
      have hpR : Reach B w h t_h t_l p := hI.reach p hpM
      have hpI : interior w h p := hI.mapInterior p hpM
      have hI₀ : HInv B w h t_h t_l { st with stack := rest } := by
        refine ⟨hI.blurEq, hI.reach, hI.mapInterior, ?_, ?_, hI.pushesEq, ?_, hI.maxLenLe⟩
        · intro a ha
          exact hI.stackMarked a (by rw [hstk]; exact List.mem_cons_of_mem p ha)
        · have := hI.nodup
          rw [hstk] at this
          exact this.of_cons
        · show rest.length ≤ markedCard w h st
          have := hI.lenLe
          rw [hstk] at this
          simp only [List.length_cons] at this
          omega
      obtain ⟨A1, A2, A3, A4, A5, A6, A7⟩ :=
        foldl_visit_spec B w h t_h t_l hBorder p hpR hpI (neighborsOf p)
          { st with stack := rest } (fun _ hq => hq) hpM hI₀
      have hexp : expand t_l { st with stack := rest } p =
          (neighborsOf p).foldl (visit t_l) { st with stack := rest } := rfl
      rw [hexp] at he
      obtain ⟨B1, B2, B3, B4⟩ := ihn _ A1
      rw [he]
      have hmeas : hmeasure w h ((neighborsOf p).foldl (visit t_l) { st with stack := rest })
          + 1 = hmeasure w h st := by
        rw [A7]
        unfold hmeasure
        rw [hstk]
        simp only [List.length_cons]
        rfl
      refine ⟨B1, ?_, ?_, ?_⟩
      · exact fun a ha => B2 a (A2 a ha)
      · intro hs
        apply B3
        intro a ha hastk q hq htlq
        rcases A6 a ha with ha0 | ha0
        · by_cases hap : a = p
          · exact A3 q (hap ▸ hq) htlq
          · have hanotst : a ∉ st.stack := by
              rw [hstk]
              intro hmem2
              rcases List.mem_cons.mp hmem2 with h1 | h2
              · exact hap h1
              · exact hastk (A5 a h2)
            exact A2 q (hs a ha0 hanotst q hq htlq)
        · exact absurd ha0 hastk
      · intro hm
        exact B4 (by omega)

/-- Trying one interior pixel as a hysteresis seed: the invariant, saturation
and an empty stack are preserved; afterwards the pixel is marked whenever its
original value reaches `t_h`. -/
theorem seedVisit_spec (B : Plane) (w h : ℕ) (t_h t_l : ℚ)
    (hBorder : ∀ p, inPlane w h p → ¬interior w h p → B p < t_l)
    (p : Pos) (hpI : interior w h p) (st : HState)
    (hI : HInv B w h t_h t_l st) (hSat : Sat B t_l st) (hstk : st.stack = []) :
    HInv B w h t_h t_l (seedVisit t_h t_l (w * h) st p)
    ∧ Sat B t_l (seedVisit t_h t_l (w * h) st p)
    ∧ (seedVisit t_h t_l (w * h) st p).stack = []
    ∧ (∀ x, st.map x = true → (seedVisit t_h t_l (w * h) st p).map x = true)
    ∧ (t_h ≤ B p → (seedVisit t_h t_l (w * h) st p).map p = true) := by
  by_cases hg : st.blur p < t_h ∨ st.map p = true
  · have he : seedVisit t_h t_l (w * h) st p = st := by
      unfold seedVisit; rw [if_pos hg]
    rw [he]
    refine ⟨hI, hSat, hstk, fun _ hx => hx, fun htB => ?_⟩
    cases hm : st.map p
    · exfalso
      have hbp : st.blur p = B p := by rw [hI.blurEq p, hm]; rfl
      rcases hg with hg1 | hg2
      · rw [hbp] at hg1; exact absurd htB (not_le.mpr hg1)
      · rw [hm] at hg2; exact Bool.noConfusion hg2
    · rfl
  · push_neg at hg
    obtain ⟨hth2, hm⟩ := hg
    have hm' : st.map p = false := by
      cases hmp : st.map p
      · rfl
      · exact absurd hmp hm
    have hbp : st.blur p = B p := by rw [hI.blurEq p, hm']; rfl
    have htB : t_h ≤ B p := hbp ▸ hth2
    have hR : Reach B w h t_h t_l p := Reach.seed p hpI htB
    have he : seedVisit t_h t_l (w * h) st p = drain t_l (w * h) (confirmPush st p) := by
      unfold seedVisit
      rw [if_neg]
      push_neg
      exact ⟨hth2, hm⟩
    have hI₁ : HInv B w h t_h t_l (confirmPush st p) := confirmPush_HInv hI hpI hm' hR
    have hSat₁ : Sat B t_l (confirmPush st p) := by
      intro a ha hastk q hq htlq
      rw [confirmPush_map_apply] at ha
      by_cases hap : a = p
      · exfalso
        apply hastk
        simp only [confirmPush, hstk, hap]
        exact List.mem_cons_self p []
      · rw [if_neg hap] at ha
        have : a ∉ st.stack := by rw [hstk]; exact List.not_mem_nil a
        have hq2 := hSat a ha this q hq htlq
        rw [confirmPush_map_apply]
        by_cases hqp : q = p
        · simp [hqp]
        · rwa [if_neg hqp]
    have hmeas : hmeasure w h (confirmPush st p) ≤ w * h := by
      have h1 := confirmPush_unmarkedCard hpI hm'
      have h2 : (confirmPush st p).stack.length = st.stack.length + 1 := rfl
      have h3 : st.stack.length = 0 := by rw [hstk]; rfl
      have h4 := unmarkedCard_le w h st
      have h5 := interiorFinset_card_le w h
      unfold hmeasure
      omega
    obtain ⟨B1, B2, B3, B4⟩ := drain_spec B w h t_h t_l hBorder (w * h) (confirmPush st p) hI₁
    rw [he]
    refine ⟨B1, B3 hSat₁, B4 hmeas, ?_, ?_⟩
    · intro x hx
      apply B2
      rw [confirmPush_map_apply]
      by_cases hxp : x = p
      · simp [hxp]
      · rwa [if_neg hxp]
    · intro _
      apply B2
      rw [confirmPush_map_apply, if_pos rfl]

/-- The seed scan over a list of interior pixels. -/
theorem seedScan_spec (B : Plane) (w h : ℕ) (t_h t_l : ℚ)
    (hBorder : ∀ p, inPlane w h p → ¬interior w h p → B p < t_l) :
    ∀ (L : List Pos) (st : HState), (∀ p ∈ L, interior w h p) →
      HInv B w h t_h t_l st → Sat B t_l st → st.stack = [] →
      HInv B w h t_h t_l (L.foldl (seedVisit t_h t_l (w * h)) st)
      ∧ Sat B t_l (L.foldl (seedVisit t_h t_l (w * h)) st)
      ∧ (L.foldl (seedVisit t_h t_l (w * h)) st).stack = []
      ∧ (∀ x, st.map x = true → (L.foldl (seedVisit t_h t_l (w * h)) st).map x = true)
      ∧ (∀ p ∈ L, t_h ≤ B p → (L.foldl (seedVisit t_h t_l (w * h)) st).map p = true) := by
  intro L
  induction L with
  | nil =>
    intro st _ hI hSat hstk
    exact ⟨hI, hSat, hstk, fun _ hx => hx, fun q hq => absurd hq (List.not_mem_nil q)⟩
  | cons p L ih =>
    intro st hmem hI hSat hstk
    rw [List.foldl_cons]
    have hpI : interior w h p := hmem p (List.mem_cons_self p L)
    obtain ⟨A1, A2, A3, A4, A5⟩ :=
      seedVisit_spec B w h t_h t_l hBorder p hpI st hI hSat hstk
    obtain ⟨B1, B2, B3, B4, B5⟩ :=
      ih (seedVisit t_h t_l (w * h) st p) (fun q hq => hmem q (List.mem_cons_of_mem p hq))
        A1 A2 A3
    refine ⟨B1, B2, B3, fun x hx => B4 x (A4 x hx), ?_⟩
    intro q hq htB
    rcases List.mem_cons.mp hq with hqp | hqL
    · subst hqp
      exact B4 q (A5 htB)
    · exact B5 q hqL htB

theorem mem_interiorScan {w h : ℕ} {p : Pos} :
    p ∈ interiorScan w h ↔ interior w h p := by
  constructor
  · intro hp
    rw [interiorScan, List.mem_flatMap] at hp
    obtain ⟨j, hj, hmem⟩ := hp
    rw [List.mem_map] at hmem
    obtain ⟨i, hi, heq⟩ := hmem
    rw [List.mem_range] at hj
    rw [List.mem_range] at hi
    have h1 : p.1 = (i : ℤ) + 1 := by rw [← heq]
    have h2 : p.2 = (j : ℤ) + 1 := by rw [← heq]
    unfold interior
    omega
  · intro hp
    unfold interior at hp
    rw [interiorScan, List.mem_flatMap]
    refine ⟨(p.2 - 1).toNat, ?_, ?_⟩
    · rw [List.mem_range]; omega
    · rw [List.mem_map]
      refine ⟨(p.1 - 1).toNat, ?_, ?_⟩
      · rw [List.mem_range]; omega
      · rw [Prod.ext_iff]
        refine ⟨?_, ?_⟩ <;> dsimp only <;> omega

/-- Final state of `hysteresis`: the invariant holds, the stack is empty, and
the visit map marks exactly the pixels reachable in the sense of `Reach`. -/
theorem hysteresis_characterization (B : Plane) (w h : ℕ) (t_h t_l : ℚ)
    (hBorder : ∀ p, inPlane w h p → ¬interior w h p → B p < t_l) :
    HInv B w h t_h t_l (hysteresis B w h t_h t_l)
    ∧ (hysteresis B w h t_h t_l).stack = []
    ∧ (∀ p, (hysteresis B w h t_h t_l).map p = true ↔ Reach B w h t_h t_l p) := by
  have hInit : HInv B w h t_h t_l ⟨B, fun _ => false, [], 0, 0⟩ := by
    refine ⟨fun p => rfl, ?_, ?_, ?_, List.nodup_nil, ?_, ?_, Nat.zero_le _⟩
    · intro p hp; exact Bool.noConfusion hp
    · intro p hp; exact Bool.noConfusion hp
    · intro p hp; exact absurd hp (List.not_mem_nil p)
    · show 0 = markedCard w h ⟨B, fun _ => false, [], 0, 0⟩
      unfold markedCard
      simp
    · show List.length [] ≤ markedCard w h ⟨B, fun _ => false, [], 0, 0⟩
      simp
  have hSatInit : Sat B t_l ⟨B, fun _ => false, [], 0, 0⟩ := by
    intro a ha; exact Bool.noConfusion ha
  obtain ⟨R1, R2, R3, _, R5⟩ :=
    seedScan_spec B w h t_h t_l hBorder (interiorScan w h) ⟨B, fun _ => false, [], 0, 0⟩
      (fun q hq => mem_interiorScan.mp hq) hInit hSatInit rfl
  have hh : hysteresis B w h t_h t_l =
      List.foldl (seedVisit t_h t_l (w * h)) ⟨B, fun _ => false, [], 0, 0⟩
        (interiorScan w h) := rfl
  rw [hh]
  refine ⟨R1, R3, fun p => ⟨R1.reach p, ?_⟩⟩
  intro hR
  induction hR with
  | seed q hqI htB => exact R5 q (mem_interiorScan.mpr hqI) htB
  | step a q _ hadj htl ihq =>
    have hnb : q ∈ neighborsOf a := (adjacent_iff_mem.mp hadj).1
    have hanotstk :
        a ∉ (List.foldl (seedVisit t_h t_l (w * h)) ⟨B, fun _ => false, [], 0, 0⟩
          (interiorScan w h)).stack := by
      rw [R3]; exact List.not_mem_nil a
    exact R2 a ihq hanotstk q hnb htl

/-- Sentinel form of the characterisation: a pixel of the plane ends the pass
holding `FLT_MAX` exactly when it is reachable, and otherwise keeps its
pre-hysteresis value. -/
theorem hysteresis_confirmed_iff (B : Plane) (w h : ℕ) (t_h t_l : ℚ)
    (hth : t_l < t_h) (hthF : t_h ≤ fltMax)
    (hBorder : ∀ p, inPlane w h p → ¬interior w h p → B p < t_l) :
    ∀ p, inPlane w h p →
      (((hysteresis B w h t_h t_l).blur p = fltMax) ↔ Reach B w h t_h t_l p)
      ∧ (¬Reach B w h t_h t_l p → (hysteresis B w h t_h t_l).blur p = B p) := by
  obtain ⟨R1, _, R3⟩ := hysteresis_characterization B w h t_h t_l hBorder
  intro p hpP
  have hblur := R1.blurEq p
  constructor
  · constructor
    · intro hfl
      cases hm : (hysteresis B w h t_h t_l).map p
      · rw [hm] at hblur
        simp only [Bool.false_eq_true, if_false] at hblur
        have hBp : B p = fltMax := by rw [← hblur]; exact hfl
        by_cases hpI : interior w h p
        · exact Reach.seed p hpI (hBp ▸ hthF)
        · exfalso
          have h1 : B p < t_l := hBorder p hpP hpI
          rw [hBp] at h1
          have : t_h < t_l := lt_of_le_of_lt hthF h1
          exact absurd hth (not_lt.mpr (le_of_lt this))
      · exact (R3 p).mp hm
    · intro hR
      have hm : (hysteresis B w h t_h t_l).map p = true := (R3 p).mpr hR
      rw [hm] at hblur
      simpa using hblur
  · intro hnR
    have hm : (hysteresis B w h t_h t_l).map p = false := by
      cases hm2 : (hysteresis B w h t_h t_l).map p
      · rfl
      · exact absurd ((R3 p).mp hm2) hnR
    rw [hm] at hblur
    simpa using hblur

/-- Reachability is antitone in the high threshold. -/
theorem Reach_anti_th {B : Plane} {w h : ℕ} {t_h t_h' t_l : ℚ} {p : Pos}
    (hle : t_h ≤ t_h') (hR : Reach B w h t_h' t_l p) : Reach B w h t_h t_l p := by
  induction hR with
  | seed q hqI htB => exact Reach.seed q hqI (le_trans hle htB)
  | step a q _ hadj htl ih => exact Reach.step a q ih hadj htl

/-- Reachability is antitone in the low threshold. -/
theorem Reach_anti_tl {B : Plane} {w h : ℕ} {t_h t_l t_l' : ℚ} {p : Pos}
    (hle : t_l ≤ t_l') (hR : Reach B w h t_h t_l' p) : Reach B w h t_h t_l p := by
  induction hR with
  | seed q hqI htB => exact Reach.seed q hqI htB
  | step a q _ hadj htl ih => exact Reach.step a q ih hadj (le_trans hle htl)

/-- C1: for a hysteresis pass with `t_l < t_h` on a suppressed map whose
non-interior plane pixels sit below `t_l` (as `nonMaximumSuppression`
guarantees with its `-FLT_MAX` borders) and with a representable `t_h`, a
plane pixel ends the pass holding the confirmed sentinel `FLT_MAX` iff it is
reachable by an 8-connected chain of pixels of value `≥ t_l` from an interior
pixel of value `≥ t_h`; every other pixel keeps its pre-hysteresis value. -/
theorem C1_hysteresis_double_threshold (B : Plane) (w h : ℕ) (t_h t_l : ℚ)
    (hth : t_l < t_h) (hthF : t_h ≤ fltMax)
    (hBorder : ∀ p, inPlane w h p → ¬interior w h p → B p < t_l)
    (p : Pos) (hpP : inPlane w h p) :
    (((hysteresis B w h t_h t_l).blur p = fltMax) ↔ Reach B w h t_h t_l p)
    ∧ (¬Reach B w h t_h t_l p → (hysteresis B w h t_h t_l).blur p = B p) :=
  hysteresis_confirmed_iff B w h t_h t_l hth hthF hBorder p hpP

theorem C1_witness :
    (((hysteresis (fun _ => 0) 3 3 2 1).blur (1, 1) = fltMax) ↔
      Reach (fun _ => 0) 3 3 2 1 (1, 1))
    ∧ (¬Reach (fun _ => 0) 3 3 2 1 (1, 1) →
      (hysteresis (fun _ => 0) 3 3 2 1).blur (1, 1) = 0) :=
  C1_hysteresis_double_threshold (fun _ => 0) 3 3 2 1 (by norm_num)
    (by norm_num [fltMax]) (fun p _ _ => by norm_num) (1, 1) (by decide)

/-- C3: during one hysteresis pass every pixel is marked in the visit map when
pushed and never pushed while marked, so the total number of pushes equals the
number of marked pixels (each pixel is pushed at most once), the stack never
grows beyond `width * height` entries (the stack index never reaches
`width * height`), and the pass terminates with an empty stack. -/
theorem C3_stack_safety (B : Plane) (w h : ℕ) (t_h t_l : ℚ)
    (hBorder : ∀ p, inPlane w h p → ¬interior w h p → B p < t_l) :
    (hysteresis B w h t_h t_l).pushes = markedCard w h (hysteresis B w h t_h t_l)
    ∧ (hysteresis B w h t_h t_l).pushes ≤ w * h
    ∧ (hysteresis B w h t_h t_l).maxLen ≤ w * h
    ∧ (hysteresis B w h t_h t_l).stack = [] := by
  obtain ⟨R1, R2, _⟩ := hysteresis_characterization B w h t_h t_l hBorder
  refine ⟨R1.pushesEq, ?_, ?_, R2⟩
  · calc (hysteresis B w h t_h t_l).pushes
        = markedCard w h (hysteresis B w h t_h t_l) := R1.pushesEq
      _ ≤ (interiorFinset w h).card := markedCard_le w h _
      _ ≤ w * h := interiorFinset_card_le w h
  · exact le_trans R1.maxLenLe (interiorFinset_card_le w h)

theorem C3_witness :
    (hysteresis (fun _ => 0) 3 3 2 1).pushes =
      markedCard 3 3 (hysteresis (fun _ => 0) 3 3 2 1)
    ∧ (hysteresis (fun _ => 0) 3 3 2 1).pushes ≤ 3 * 3
    ∧ (hysteresis (fun _ => 0) 3 3 2 1).maxLen ≤ 3 * 3
    ∧ (hysteresis (fun _ => 0) 3 3 2 1).stack = [] :=
  C3_stack_safety (fun _ => 0) 3 3 2 1 (fun p _ _ => by norm_num)

/-- C7: for a fixed suppressed map, the confirmed set is antitone in both
thresholds — raising `t_h` (with `t_l` fixed) or raising `t_l` (with `t_h`
fixed, keeping `t_l' < t_h`) never confirms a pixel that the smaller
thresholds did not confirm. -/
theorem C7_confirmed_antitone (B : Plane) (w h : ℕ) (t_h t_l : ℚ)
    (hth : t_l < t_h) (hthF : t_h ≤ fltMax)
    (hBorder : ∀ p, inPlane w h p → ¬interior w h p → B p < t_l) :
    (∀ t_h', t_h ≤ t_h' → t_h' ≤ fltMax → ∀ p, inPlane w h p →
      (hysteresis B w h t_h' t_l).blur p = fltMax →
      (hysteresis B w h t_h t_l).blur p = fltMax)
    ∧ (∀ t_l', t_l ≤ t_l' → t_l' < t_h → ∀ p, inPlane w h p →
      (hysteresis B w h t_h t_l').blur p = fltMax →
      (hysteresis B w h t_h t_l).blur p = fltMax) := by
  constructor
  · intro t_h' hle hleF p hpP hconf
    have hth2 : t_l < t_h' := lt_of_lt_of_le hth hle
    have hR : Reach B w h t_h' t_l p :=
      ((hysteresis_confirmed_iff B w h t_h' t_l hth2 hleF hBorder p hpP).1).mp hconf
    exact ((hysteresis_confirmed_iff B w h t_h t_l hth hthF hBorder p hpP).1).mpr
      (Reach_anti_th hle hR)
  · intro t_l' hle hth2 p hpP hconf
    have hBorder2 : ∀ q, inPlane w h q → ¬interior w h q → B q < t_l' :=
      fun q hq1 hq2 => lt_of_lt_of_le (hBorder q hq1 hq2) hle
    have hR : Reach B w h t_h t_l' p :=
      ((hysteresis_confirmed_iff B w h t_h t_l' hth2 hthF hBorder2 p hpP).1).mp hconf
    exact ((hysteresis_confirmed_iff B w h t_h t_l hth hthF hBorder p hpP).1).mpr
      (Reach_anti_tl hle hR)

theorem C7_witness :
    (∀ t_h', (2 : ℚ) ≤ t_h' → t_h' ≤ fltMax → ∀ p, inPlane 3 3 p →
      (hysteresis (fun _ => 0) 3 3 t_h' 1).blur p = fltMax →
      (hysteresis (fun _ => 0) 3 3 2 1).blur p = fltMax)
    ∧ (∀ t_l', (1 : ℚ) ≤ t_l' → t_l' < 2 → ∀ p, inPlane 3 3 p →
      (hysteresis (fun _ => 0) 3 3 2 t_l').blur p = fltMax →
      (hysteresis (fun _ => 0) 3 3 2 1).blur p = fltMax) :=
  C7_confirmed_antitone (fun _ => 0) 3 3 2 1 (by norm_num) (by norm_num [fltMax])
    (fun p _ _ => by norm_num)

/-- The suppressed map handed to `hysteresis` by the pipeline satisfies the
border hypothesis of the hysteresis theorems for every threshold above
`-FLT_MAX`: non-maximum suppression forces every non-interior pixel to the
suppressed sentinel. -/
theorem nms_border_lt (gradient direction : Plane) (w h : ℕ) {t_l : ℚ}
    (ht : -fltMax < t_l) :
    ∀ p, inPlane w h p → ¬interior w h p →
      nonMaximumSuppression gradient direction w h p < t_l := by
  intro p _ hpI
  unfold nonMaximumSuppression
  rw [if_neg hpI]
  exact ht

/-- C2: when every direction value is nonnegative (which `detectEdge`
guarantees), non-maximum suppression computes exactly what the specification
describes: the bin is `floor(direction·4/π + 0.5)` with values `≥ 4` wrapping
to `0`, each interior pixel is compared against its two neighbours along the
bin's axis (bin 0 left/right, bin 1 up-right/down-left, bin 2 up/down, bin 3
up-left/down-right) and keeps its magnitude iff it is `≥` both, and every
first/last row/column pixel is the suppressed sentinel `-FLT_MAX`. -/
theorem C2_nms_refines_spec (gradient direction : Plane) (w h : ℕ)
    (hdir : ∀ p, 0 ≤ direction p) :
    nonMaximumSuppression gradient direction w h = nmsSpec gradient direction w h
    ∧ (∀ p, inPlane w h p → ¬interior w h p →
        nonMaximumSuppression gradient direction w h p = -fltMax) := by
  constructor
  · funext p
    obtain ⟨x, y⟩ := p
    unfold nonMaximumSuppression nmsSpec
    by_cases hi : interior w h (x, y)
    · rw [if_pos hi, if_pos hi]
      obtain ⟨heq, h0, h4⟩ := getBinInt_eq_specBin (hdir (x, y))
      rw [← heq]
      have hcase : getBinInt (direction (x, y)) 4 = 0 ∨ getBinInt (direction (x, y)) 4 = 1
          ∨ getBinInt (direction (x, y)) 4 = 2 ∨ getBinInt (direction (x, y)) 4 = 3 := by
        omega
      rcases hcase with hb | hb | hb | hb <;> rw [hb] <;>
        simp [nmsOffset, nmsSpecAxis, Prod.mk_add_mk, Prod.mk_sub_mk, max_le_iff,
          sub_eq_add_neg, and_comm]
    · rw [if_neg hi, if_neg hi]
  · intro p _ hpI
    unfold nonMaximumSuppression
    rw [if_neg hpI]

theorem C2_witness :
    nonMaximumSuppression (fun _ => 0) (fun _ => 0) 4 4 =
      nmsSpec (fun _ => 0) (fun _ => 0) 4 4
    ∧ (∀ p, inPlane 4 4 p → ¬interior 4 4 p →
        nonMaximumSuppression (fun _ => 0) (fun _ => 0) 4 4 p = -fltMax) :=
  C2_nms_refines_spec (fun _ => 0) (fun _ => 0) 4 4 (fun _ => le_refl 0)

/-- C6: every pixel of the plane after non-maximum suppression holds either
its own pre-suppression gradient magnitude or the suppressed sentinel
`-FLT_MAX` and nothing else; in particular (gradient magnitudes being
nonnegative) the written value never exceeds the pre-suppression magnitude. -/
theorem C6_nms_no_partial_values (gradient direction : Plane) (w h : ℕ)
    (hg : ∀ q, 0 ≤ gradient q) (p : Pos) :
    (nonMaximumSuppression gradient direction w h p = gradient p
      ∨ nonMaximumSuppression gradient direction w h p = -fltMax)
    ∧ nonMaximumSuppression gradient direction w h p ≤ gradient p := by
  have h1 := hg p
  have h2 := fltMax_pos
  unfold nonMaximumSuppression
  dsimp only
  split
  · split
    · exact ⟨Or.inl rfl, le_refl _⟩
    · exact ⟨Or.inr rfl, by linarith⟩
  · exact ⟨Or.inr rfl, by linarith⟩

theorem C6_witness :
    ((nonMaximumSuppression (fun _ => 0) (fun _ => 0) 4 4 (1, 1) = (fun _ => (0 : ℚ)) (1, 1)
      ∨ nonMaximumSuppression (fun _ => 0) (fun _ => 0) 4 4 (1, 1) = -fltMax)
    ∧ nonMaximumSuppression (fun _ => 0) (fun _ => 0) 4 4 (1, 1) ≤ (fun _ => (0 : ℚ)) (1, 1)) :=
  C6_nms_no_partial_values (fun _ => 0) (fun _ => 0) 4 4 (fun _ => le_refl 0) (1, 1)

/-- C4: for any `sigma > 0` the kernel has diameter
`max(floor(sigma·3 + 0.5), 1) * 2 + 1` and radius `diameter / 2 =
max(round(sigma·3), 1)`; the stored weight at offset `k ∈ [-radius, radius]`
is `exp(-k²/(2σ²))` divided by the sum of the unnormalised weights, and the
normalised weights sum to exactly 1. -/
theorem C4_gaussian_kernel (sigma : ℝ) (hσ : 0 < sigma) :
    gwDiameter sigma = max ⌊sigma * 3 + 1 / 2⌋ 1 * 2 + 1
    ∧ gwRadius sigma = max ⌊sigma * 3 + 1 / 2⌋ 1
    ∧ (∀ k, gaussianWeights sigma k =
        Real.exp (-(k * k) / (2 * sigma * sigma)) /
          ∑ j in Finset.Icc (-gwRadius sigma) (gwRadius sigma),
            Real.exp (-(j * j) / (2 * sigma * sigma)))
    ∧ ∑ k in Finset.Icc (-gwRadius sigma) (gwRadius sigma), gaussianWeights sigma k = 1 := by
  have harg : (0 : ℝ) ≤ sigma * 3 + 1 / 2 := by nlinarith
  have htr : truncR (sigma * 3 + 1 / 2) = ⌊sigma * 3 + 1 / 2⌋ := by
    unfold truncR
    rw [if_neg (not_lt.mpr harg)]
  have hdiam : gwDiameter sigma = max ⌊sigma * 3 + 1 / 2⌋ 1 * 2 + 1 := by
    unfold gwDiameter
    rw [htr]
  have hm1 : 1 ≤ max ⌊sigma * 3 + 1 / 2⌋ 1 := le_max_right _ 1
  have hrad : gwRadius sigma = max ⌊sigma * 3 + 1 / 2⌋ 1 := by
    unfold gwRadius
    rw [hdiam]
    omega
  have hpos : 0 < gwSum sigma := by
    apply Finset.sum_pos
    · intro i _
      exact Real.exp_pos _
    · refine Finset.nonempty_Icc.mpr ?_
      rw [hrad]
      omega
  refine ⟨hdiam, hrad, fun k => rfl, ?_⟩
  unfold gaussianWeights
  rw [← Finset.sum_div]
  exact div_self (ne_of_gt hpos)

theorem C4_witness :
    gwDiameter (3 / 2) = max ⌊(3 / 2 : ℝ) * 3 + 1 / 2⌋ 1 * 2 + 1
    ∧ gwRadius (3 / 2) = max ⌊(3 / 2 : ℝ) * 3 + 1 / 2⌋ 1
    ∧ (∀ k, gaussianWeights (3 / 2) k =
        Real.exp (-(k * k) / (2 * (3 / 2) * (3 / 2))) /
          ∑ j in Finset.Icc (-gwRadius (3 / 2)) (gwRadius (3 / 2)),
            Real.exp (-(j * j) / (2 * (3 / 2) * (3 / 2))))
    ∧ ∑ k in Finset.Icc (-gwRadius (3 / 2)) (gwRadius (3 / 2)),
        gaussianWeights (3 / 2) k = 1 :=
  C4_gaussian_kernel (3 / 2) (by norm_num)

/-- C5 counterexample: at `gx = -1`, `gy = 0` (an attainable gradient, e.g.
from a brightness ramp decreasing in `x`), `atan2(0, -1) = π ≥ 0` so no π is
added, and the stored direction is exactly π — not strictly less than π. -/
theorem C5_counterexample :
    directionOf (-1) 0 = Real.pi ∧ ¬(directionOf (-1) 0 < Real.pi) := by
  have harg : atan2R 0 (-1) = Real.pi := by
    unfold atan2R
    have he : (⟨-1, 0⟩ : ℂ) = (-1 : ℂ) := by
      apply Complex.ext <;> simp
    rw [he, Complex.arg_neg_one]
  have hval : directionOf (-1) 0 = Real.pi := by
    unfold directionOf
    rw [harg, if_neg (not_lt.mpr (le_of_lt Real.pi_pos))]
  exact ⟨hval, hval ▸ lt_irrefl Real.pi⟩

/-- C5 (amended): the direction stored by `detectEdge` always lies in the
closed interval `[0, π]`; the right endpoint π is attained (see the
counterexample), so the interval cannot be made half-open. -/
theorem C5_direction_range (gx gy : ℝ) :
    0 ≤ directionOf gx gy ∧ directionOf gx gy ≤ Real.pi := by
  have h1 : Complex.arg ⟨gx, gy⟩ ≤ Real.pi := Complex.arg_le_pi _
  have h2 : -Real.pi < Complex.arg ⟨gx, gy⟩ := Complex.neg_pi_lt_arg _
  unfold directionOf atan2R
  split
  · constructor <;> linarith
  · constructor
    · next hnot => exact not_lt.mp hnot
    · exact h1

/-- C8 counterexample: a configuration with `t_l ≥ t_h` but an invalid sigma
(`sigma = -1`, `t_h = 2`, `t_l = 5`, everything else valid) fails with the
*sigma* error message, not the threshold-ordering one — the sigma check runs
first (lines 996-999), so the claim's "for every configuration in which
t_l ≥ t_h ... fails with a threshold-ordering error" does not hold as
stated. -/
theorem C8_counterexample :
    tcannyCreate ⟨-1, 2, 5, 0, 1, 50, true, true, 8, 3, false, []⟩
        = Except.error "TCanny: sigma must be greater than 0.0"
    ∧ ("TCanny: sigma must be greater than 0.0"
        ≠ "TCanny: t_h must be greater than t_l") := by
  constructor
  · rfl
  · decide

/-- C8 (amended): for every configuration whose sigma passes its (earlier)
check, supplying `t_l ≥ t_h` makes construction fail with the
threshold-ordering error message, before the weight table is built and
without producing a filter state. -/
theorem C8_threshold_order_rejected (p : CreateParams) (hσ : 0 < p.sigma)
    (h : p.t_h ≤ p.t_l) :
    tcannyCreate p = Except.error "TCanny: t_h must be greater than t_l" := by
  unfold tcannyCreate
  rw [if_neg (not_le.mpr hσ), if_pos h]

theorem C8_witness :
    tcannyCreate ⟨2, 2, 5, 0, 1, 50, true, true, 8, 3, false, []⟩
      = Except.error "TCanny: t_h must be greater than t_l" :=
  C8_threshold_order_rejected ⟨2, 2, 5, 0, 1, 50, true, true, 8, 3, false, []⟩
    (by norm_num) (by norm_num)

/-- C9: any plane not in the selected set is byte-for-byte the corresponding
source plane in the output frame — only selected planes are written. -/
theorem processStep_foldl_untouched (c : TCannyConfig) (wts : ℤ → ℚ)
    (sqrtF : ℚ → ℚ) (atan2F : ℚ → ℚ → ℚ) (dims : Fin 3 → ℕ × ℕ)
    (src : Fin 3 → Plane) (i : Fin 3) (hi : c.process i = false) :
    ∀ (L : List (Fin 3)) (dst : Fin 3 → Plane), dst i = src i →
      L.foldl (processStep c wts sqrtF atan2F dims src) dst i = src i := by
  intro L
  induction L with
  | nil => exact fun dst hdst => hdst
  | cons j L ih =>
    intro dst hdst
    rw [List.foldl_cons]
    apply ih
    unfold processStep
    by_cases hj : c.process j = true
    · rw [if_pos hj, Function.update_apply]
      have hji : i ≠ j := by
        intro he
        rw [he, hj] at hi
        exact Bool.noConfusion hi
      rw [if_neg hji]
      exact hdst
    · have hj' : c.process j = false := by
        cases hjj : c.process j
        · rfl
        · exact absurd hjj hj
      rw [hj']
      exact hdst

theorem C9_untouched_planes (c : TCannyConfig) (wts : ℤ → ℚ) (sqrtF : ℚ → ℚ)
    (atan2F : ℚ → ℚ → ℚ) (dims : Fin 3 → ℕ × ℕ) (src : Fin 3 → Plane)
    (i : Fin 3) (hi : c.process i = false) :
    processFrame c wts sqrtF atan2F dims src i = src i := by
  have hinit : tcannyNewVideoFrame c.process src i = src i := by
    unfold tcannyNewVideoFrame
    rw [hi]
    rfl
  exact processStep_foldl_untouched c wts sqrtF atan2F dims src i hi _ _ hinit

theorem C9_witness :
    processFrame ⟨8, 1, 0, 1, fun _ => false, 5, 256, 51 / 10, 255,
        fun _ => 0, fun _ => 0, fun _ => 0, false, 3⟩
      (fun _ => 0) (fun q => q) (fun _ _ => 0) (fun _ => (4, 4))
      (fun _ => fun _ => 0) 0 = (fun _ => (0 : ℚ)) :=
  C9_untouched_planes _ (fun _ => 0) (fun q => q) (fun _ _ => 0) (fun _ => (4, 4))
    (fun _ => fun _ => 0) 0 rfl

/-- The per-plane pipeline ignores the thresholds in the odd modes
(−1, 1, 3), where non-maximum suppression and hysteresis are skipped. -/
theorem processPlane_thresholds (c : TCannyConfig) (wts : ℤ → ℚ) (sqrtF : ℚ → ℚ)
    (atan2F : ℚ → ℚ → ℚ) (w h : ℕ) (plane : Fin 3) (sp : Plane)
    (hm : c.mode = -1 ∨ c.mode = 1 ∨ c.mode = 3) (a b a' b' : ℚ) :
    processPlane (setThresholds c a b) wts sqrtF atan2F w h plane sp
      = processPlane (setThresholds c a' b') wts sqrtF atan2F w h plane sp := by
  have hmod : ¬(c.mode % 2 = 0) := by
    rcases hm with hv | hv | hv <;> rw [hv] <;> decide
  simp only [processPlane, setThresholds]
  simp only [if_neg hmod]

/-- C10: in modes −1, 1 and 3 the destination frame is independent of both
thresholds — two invocations differing only in `t_h` and `t_l` produce
identical output planes. -/
theorem C10_thresholds_ignored_odd_modes (c : TCannyConfig) (wts : ℤ → ℚ)
    (sqrtF : ℚ → ℚ) (atan2F : ℚ → ℚ → ℚ) (dims : Fin 3 → ℕ × ℕ)
    (src : Fin 3 → Plane) (hm : c.mode = -1 ∨ c.mode = 1 ∨ c.mode = 3)
    (a b a' b' : ℚ) :
    processFrame (setThresholds c a b) wts sqrtF atan2F dims src
      = processFrame (setThresholds c a' b') wts sqrtF atan2F dims src := by
  have hstep : processStep (setThresholds c a b) wts sqrtF atan2F dims src
      = processStep (setThresholds c a' b') wts sqrtF atan2F dims src := by
    funext dst j
    unfold processStep
    rw [processPlane_thresholds c wts sqrtF atan2F (dims j).1 (dims j).2 j (src j) hm a b a' b']
    rfl
  show ((List.finRange 3).filter fun i => (i : ℕ) < c.numPlanes).foldl
      (processStep (setThresholds c a b) wts sqrtF atan2F dims src)
      (tcannyNewVideoFrame c.process src)
    = ((List.finRange 3).filter fun i => (i : ℕ) < c.numPlanes).foldl
      (processStep (setThresholds c a' b') wts sqrtF atan2F dims src)
      (tcannyNewVideoFrame c.process src)
  rw [hstep]

theorem C10_witness :
    processFrame
        (setThresholds ⟨8, 1, 1, 1, fun _ => true, 5, 256, 51 / 10, 255,
          fun _ => 0, fun _ => 0, fun _ => 0, false, 3⟩ 8 1)
        (fun _ => 0) (fun q => q) (fun _ _ => 0) (fun _ => (4, 4))
        (fun _ => fun _ => 0)
      = processFrame
        (setThresholds ⟨8, 1, 1, 1, fun _ => true, 5, 256, 51 / 10, 255,
          fun _ => 0, fun _ => 0, fun _ => 0, false, 3⟩ 9 2)
        (fun _ => 0) (fun q => q) (fun _ _ => 0) (fun _ => (4, 4))
        (fun _ => fun _ => 0) :=
  C10_thresholds_ignored_odd_modes _ (fun _ => 0) (fun q => q) (fun _ _ => 0)
    (fun _ => (4, 4)) (fun _ => fun _ => 0) (Or.inr (Or.inl rfl)) 8 1 9 2

end TCanny
